import Mathlib

/-!
Verification of the error-documentation synchronisation script
(`src/error_docs.py`).

The script reads `./src/errors.rs`, extracts every string literal matching
the Python regex `"(E\d\d\d\d:.+?)"` (no DOTALL flag, so `.` excludes
newlines and the lazy `.+?` stops at the first closing quote), and replaces
every non-overlapping match of `(/// Macro to produce nice errors).*?(#\[macro_export\])`
(with DOTALL, lazy, count `0` = all matches) by the header, one `/// ` line
per extracted message, and the end marker.  The new text is printed to
standard output (Python `print` appends one `\n`) and written to the file.

The embedding below works on `List Char`.  `findErrors` is the shallow
embedding of `re.findall(ERROR_PATTERN, content)`.  The `re.sub` call is
modelled in two layers: `subDoc`/`new_content` run the match/replace loop
with the extracted messages spliced literally into the replacement — which
is what the script produces whenever no message contains a backslash — and
`parseTemplate`/`expandT`/`subDocT`/`new_content_result` model the full
behaviour of the replacement argument, which Python treats as a template and
re-parses (group references, character escapes, and `re.error` on a bad
escape, which aborts the run before any matching).  `\d` in the extraction
pattern is modelled by `Char.isDigit` (ASCII decimal digits; the distinction
with other Unicode decimal digits is immaterial to the claims considered
here).  Scanning is implemented with a fuel argument equal to the length of
the scanned list so that every definition reduces by kernel computation;
fuel-irrelevance lemmas recover the defining equations.
-/

/-- The header line of the documentation block (`ERROR_INITIAL_DOC` in the
script). -/
def ERROR_INITIAL_DOC : String := "/// Macro to produce nice errors"

/-- The end marker of the documentation block, the second captured group of
`ERROR_DOC_LISTING_PATTERN` in the script. -/
def markerS : String := "#[macro_export]"

/-- Header as a character list. -/
def headerL : List Char := ERROR_INITIAL_DOC.toList

/-- End marker as a character list. -/
def markerL : List Char := markerS.toList

/-- The `/// ` comment prefix used for each generated documentation line. -/
def slashSp : List Char := ("/// ").toList

/-- The separator `"\n/// "` used both after the header and by
`"\n/// ".join(errors)` in the script's replacement template. -/
def sepL : List Char := '\n' :: slashSp

/-- Boolean prefix test on character lists (the anchored part of regex
matching at one position). -/
def isPre : List Char → List Char → Bool
  | [], _ => true
  | _ :: _, [] => false
  | a :: as, b :: bs => if a = b then isPre as bs else false

/-- `splitFirst pat l` returns the remainder of `l` after the first
occurrence of `pat`, scanning position by position from the left, or `none`
if `pat` does not occur.  This is the lazy `.*?pat` search of the regex
engine. -/
def splitFirst (pat : List Char) : List Char → Option (List Char)
  | [] => if isPre pat [] then some [] else none
  | c :: r => if isPre pat (c :: r) then some ((c :: r).drop pat.length)
              else splitFirst pat r

/-- Body scan for the lazy `.+?"` tail of `ERROR_PATTERN`: consume at least
one non-newline character, stopping as soon as the next character is a
closing quote.  Returns the consumed body and the text after the closing
quote. -/
def scanBody : List Char → Option (List Char × List Char)
  | [] => none
  | c :: rest =>
    if c = '\n' then none
    else if rest.head? = some '\"' then some ([c], rest.tail)
    else
      match scanBody rest with
      | some (b, r) => some (c :: b, r)
      | none => none

/-- Attempt to match the inside of `ERROR_PATTERN` (after an opening quote):
`E`, four digits, `:`, then a lazy non-newline body ended by a closing
quote.  Returns the captured group and the text after the match. -/
def tryMsg : List Char → Option (List Char × List Char)
  | e :: d1 :: d2 :: d3 :: d4 :: c :: rest =>
    if e = 'E' ∧ d1.isDigit ∧ d2.isDigit ∧ d3.isDigit ∧ d4.isDigit ∧ c = ':' then
      match scanBody rest with
      | some (b, r) => some (e :: d1 :: d2 :: d3 :: d4 :: c :: b, r)
      | none => none
    else none
  | _ => none

/-- Fuelled scan of `re.findall(ERROR_PATTERN, content)`: try the pattern at
every position (it can only start at a quote), restart after the end of a
match, advance one character on failure. -/
def findErrGo : Nat → List Char → List (List Char)
  | 0, _ => []
  | _ + 1, [] => []
  | fuel + 1, c :: r =>
    if c = '\"' then
      match tryMsg r with
      | some (m, rest) => m :: findErrGo fuel rest
      | none => findErrGo fuel r
    else findErrGo fuel r

/-- `re.findall(ERROR_PATTERN, content)`: the ordered list of captured error
messages. -/
def findErrors (l : List Char) : List (List Char) := findErrGo l.length l

/-- `"\n/// ".join(errors)`. -/
def joinDoc : List (List Char) → List Char
  | [] => []
  | [e] => e
  | e :: es => e ++ sepL ++ joinDoc es

/-- The part of the replacement between header and end marker:
`"\n/// " + "\n/// ".join(errors) + "\n"`. -/
def docMid (es : List (List Char)) : List Char := sepL ++ joinDoc es ++ ['\n']

/-- The replacement text `\g<1>\n/// ` + join + `\n\g<2>` with the group
references resolved (both groups of the pattern are fixed literals) and the
extracted messages inserted literally.  Python re-parses the spliced
template, so this is the true replacement exactly when no message contains a
backslash (`pt_template` and `expandT_fixed` below); the general template
semantics, including `re.error`, is modelled by `parseTemplate`, `expandT`
and `new_content_result` further down. -/
def docRepl (es : List (List Char)) : List Char := headerL ++ docMid es ++ markerL

/-- Fuelled scan of
`re.sub(ERROR_DOC_LISTING_PATTERN, repl, content, 0, re.DOTALL)`:
at each position, if the header matches and the end marker occurs later
(DOTALL `.*?` crosses newlines, lazily stopping at the first marker), emit
the replacement and continue after the match; otherwise copy one character. -/
def subDocGo (es : List (List Char)) : Nat → List Char → List Char
  | 0, l => l
  | _ + 1, [] => []
  | fuel + 1, c :: r =>
    if isPre headerL (c :: r) then
      match splitFirst markerL ((c :: r).drop headerL.length) with
      | some rest => docRepl es ++ subDocGo es fuel rest
      | none => c :: subDocGo es fuel r
    else c :: subDocGo es fuel r

/-- The match/replace loop of the `re.sub` call with the literal-splice
replacement `docRepl es`.  This is the loop the script runs whenever the
replacement template compiles, and the compiled template expands to
`docRepl es` at every match exactly when no message contains a backslash;
`subDocT` below runs the same loop with an arbitrary compiled template, and
`new_content_result` adds the template-compilation error path. -/
def subDoc (es : List (List Char)) (l : List Char) : List Char :=
  subDocGo es l.length l

/-- `new_content` in the script: substitute using the messages extracted
from the same original text.  This is the value printed and written by a run
that completes; `new_content_result` below models a run including the
template-compilation error path. -/
def new_content (content : List Char) : List Char :=
  subDoc (findErrors content) content

/-- Python `print` with default arguments: the argument followed by one
newline. -/
def pythonPrint (s : String) : String := s ++ ("\n")

/-- The bytes written back to the target file by a completing run: exactly
`new_content` (a run that raises `re.error` writes nothing; see
`fileResult`). -/
def fileOutput (s : String) : String := String.mk (new_content s.data)

/-- The bytes emitted on standard output by a completing run:
`print(new_content)` (see `stdoutResult` for the error-aware model). -/
def stdoutOutput (s : String) : String := pythonPrint (fileOutput s)

/-- Split a character list into its lines (separator `'\n'`, not kept). -/
def splitLines : List Char → List (List Char)
  | [] => [[]]
  | c :: r =>
    if c = '\n' then [] :: splitLines r
    else
      match splitLines r with
      | [] => [[c]]
      | l :: ls => (c :: l) :: ls

/-!
### The replacement template

`re.sub` does not splice the extracted messages literally: the replacement
argument `r"\g<1>\n/// " + "\n/// ".join(errors) + r"\n\g<2>"` is a template
string that Python parses (`re._parser.parse_template`) *before* scanning for
matches.  Escapes inside it — including any backslashes contributed by the
extracted messages themselves — are expanded: `\g<1>`/`\1` and `\g<2>`/`\2`
become the captured groups (always the header and the end marker, since both
groups of the pattern are fixed literals), `\g<0>` becomes the whole matched
span, `\n`/`\t`/… become control characters, octal escapes become characters,
`\` before a non-letter is kept verbatim, and a backslash before an
unrecognised ASCII letter (such as `\d`) raises `re.error` — aborting the run
before any match is attempted, even when the text contains no block at all.

`parseTemplate` below models this parser for the script's two-group pattern
(so valid group indices are 0, 1, 2 and there are no named groups; any
`\g<name>` whose name is not a plain decimal number is an error, as it is for
this pattern in Python — CPython additionally tolerates `int`-style signs,
whitespace and underscores inside a numeric `\g<…>` name, a corner that no
statement below depends on).  `expandT` expands a parsed template at a match,
`subDocT` is the match/replace loop using it, and `new_content_result` is the
run of the script including this error path (`none` = the run raises
`re.error` and terminates without printing or rewriting the file).
-/

/-- A parsed replacement-template element: a literal character or a group
reference. -/
inductive Tmpl where
  | lit : Char → Tmpl
  | grp : Nat → Tmpl
deriving DecidableEq

/-- Split at the first `>` (used for `\g<name>`): the name and the rest. -/
def splitAtGt : List Char → Option (List Char × List Char)
  | [] => none
  | c :: r => if c = '>' then some ([], r)
              else (splitAtGt r).map (fun p => (c :: p.1, p.2))

/-- Decimal value of a digit list. -/
def natOfDigits (l : List Char) : Nat :=
  l.foldl (fun acc c => 10 * acc + (c.toNat - 48)) 0

/-- Octal digit test. -/
def isOctChar (c : Char) : Bool := 48 ≤ c.toNat && c.toNat ≤ 55

/-- Value of an octal digit. -/
def octVal (c : Char) : Nat := c.toNat - 48

/-- ASCII letter test (`re._parser.ASCIILETTERS`). -/
def isAsciiLetter (c : Char) : Bool :=
  (97 ≤ c.toNat && c.toNat ≤ 122) || (65 ≤ c.toNat && c.toNat ≤ 90)

/-- The single-character escapes of a replacement template
(`re._parser.ESCAPES`, sans `\\` which is handled separately). -/
def escChar (c : Char) : Option Char :=
  if c = 'a' then some (Char.ofNat 7)
  else if c = 'b' then some (Char.ofNat 8)
  else if c = 'f' then some (Char.ofNat 12)
  else if c = 'n' then some '\n'
  else if c = 'r' then some (Char.ofNat 13)
  else if c = 't' then some (Char.ofNat 9)
  else if c = 'v' then some (Char.ofNat 11)
  else none

/-- Result of parsing one escape: an error, or template elements plus the
remaining input. -/
inductive EscRes where
  | fail : EscRes
  | toks : List Tmpl → List Char → EscRes
deriving DecidableEq

/-- Parse the text following a backslash in a replacement template, for a
pattern with two (unnamed) groups: `\g<digits>` with value at most 2 is a
group reference and any other `\g<…>` is an error; `\0` starts an octal
escape of up to three digits; `\1`…`\9` is a group reference (so at most
`\2`), except that three octal digits form an octal escape and a two-digit
reference exceeds the group count and is an error; a known letter escape
becomes its character; any other ASCII letter is a bad escape (error);
`\\` is a backslash; a backslash before anything else is kept verbatim. -/
def parseEsc : List Char → EscRes
  | [] => EscRes.fail
  | e :: r2 =>
    if e = 'g' then
      match r2 with
      | '<' :: r3 =>
        match splitAtGt r3 with
        | none => EscRes.fail
        | some (name, r4) =>
          if name ≠ [] ∧ name.all Char.isDigit then
            if natOfDigits name ≤ 2 then EscRes.toks [Tmpl.grp (natOfDigits name)] r4
            else EscRes.fail
          else EscRes.fail
      | _ => EscRes.fail
    else if e = '0' then
      match r2 with
      | d1 :: r3 =>
        if isOctChar d1 then
          match r3 with
          | d2 :: r4 =>
            if isOctChar d2 then
              EscRes.toks [Tmpl.lit (Char.ofNat (8 * octVal d1 + octVal d2))] r4
            else EscRes.toks [Tmpl.lit (Char.ofNat (octVal d1))] r3
          | [] => EscRes.toks [Tmpl.lit (Char.ofNat (octVal d1))] r3
        else EscRes.toks [Tmpl.lit (Char.ofNat 0)] r2
      | [] => EscRes.toks [Tmpl.lit (Char.ofNat 0)] r2
    else if e.isDigit then
      match r2 with
      | d2 :: r3 =>
        if d2.isDigit then
          match r3 with
          | d3 :: r4 =>
            if isOctChar e ∧ isOctChar d2 ∧ isOctChar d3 then
              if 64 * octVal e + 8 * octVal d2 + octVal d3 ≤ 255 then
                EscRes.toks [Tmpl.lit (Char.ofNat (64 * octVal e + 8 * octVal d2 + octVal d3))] r4
              else EscRes.fail
            else EscRes.fail
          | [] => EscRes.fail
        else
          if e.toNat - 48 ≤ 2 then EscRes.toks [Tmpl.grp (e.toNat - 48)] r2
          else EscRes.fail
      | [] =>
        if e.toNat - 48 ≤ 2 then EscRes.toks [Tmpl.grp (e.toNat - 48)] r2
        else EscRes.fail
    else if isAsciiLetter e then
      match escChar e with
      | some ch => EscRes.toks [Tmpl.lit ch] r2
      | none => EscRes.fail
    else if e = '\\' then EscRes.toks [Tmpl.lit '\\'] r2
    else EscRes.toks [Tmpl.lit '\\', Tmpl.lit e] r2

/-- Fuelled template parser: literal characters pass through, a backslash
starts an escape, an error anywhere aborts. -/
def ptGo : Nat → List Char → Option (List Tmpl)
  | 0, l => if l.isEmpty then some [] else none
  | _ + 1, [] => some []
  | fuel + 1, c :: r =>
    if c = '\\' then
      match parseEsc r with
      | EscRes.fail => none
      | EscRes.toks ts rest => (ptGo fuel rest).map (ts ++ ·)
    else (ptGo fuel r).map (Tmpl.lit c :: ·)

/-- `re._parser.parse_template` for the script's replacement template:
`none` models `re.error`. -/
def parseTemplate (l : List Char) : Option (List Tmpl) := ptGo l.length l

/-- The raw replacement-template string built by the script:
`r"\g<1>\n/// "` + `"\n/// ".join(errors)` + `r"\n\g<2>"` (the two `\n` of
the raw pieces are backslash-n character pairs; the join separator contains a
real newline). -/
def replTemplate (es : List (List Char)) : List Char :=
  ("\\g<1>\\n/// ").toList ++ joinDoc es ++ ("\\n\\g<2>").toList

/-- The parse of the script's template when every message is spliced as pure
literals (no backslash in any message): group 1, newline, `/// `, the joined
messages, newline, group 2. -/
def fixedSegs (es : List (List Char)) : List Tmpl :=
  Tmpl.grp 1 :: Tmpl.lit '\n' ::
    ((slashSp ++ joinDoc es).map Tmpl.lit ++ [Tmpl.lit '\n', Tmpl.grp 2])

/-- Expand a parsed template at one match of the block pattern: group 0 is
the whole matched span, group 1 the header, group 2 the end marker (the two
captures are fixed literals of the pattern).  Indices above 2 are rejected by
`parseTemplate` and never reach expansion. -/
def expandT : List Tmpl → List Char → List Char
  | [], _ => []
  | Tmpl.lit c :: rest, w => c :: expandT rest w
  | Tmpl.grp 0 :: rest, w => w ++ expandT rest w
  | Tmpl.grp 1 :: rest, w => headerL ++ expandT rest w
  | Tmpl.grp (_ + 2) :: rest, w => markerL ++ expandT rest w

/-- Like `splitFirst` but also returns the consumed span before the first
occurrence (needed to reconstruct the whole match for `\g<0>`). -/
def splitFirstPre (pat : List Char) : List Char → Option (List Char × List Char)
  | [] => if isPre pat [] then some ([], []) else none
  | c :: r => if isPre pat (c :: r) then some ([], (c :: r).drop pat.length)
              else (splitFirstPre pat r).map (fun p => (c :: p.1, p.2))

/-- Fuelled match/replace loop of `re.sub` with a parsed template: at each
match the template is expanded at the matched span. -/
def subDocTGo (segs : List Tmpl) : Nat → List Char → List Char
  | 0, l => l
  | _ + 1, [] => []
  | fuel + 1, c :: r =>
    if isPre headerL (c :: r) then
      match splitFirstPre markerL ((c :: r).drop headerL.length) with
      | some (gap, rest) =>
          expandT segs (headerL ++ gap ++ markerL) ++ subDocTGo segs fuel rest
      | none => c :: subDocTGo segs fuel r
    else c :: subDocTGo segs fuel r

/-- The `re.sub` match/replace loop with a parsed template. -/
def subDocT (segs : List Tmpl) (l : List Char) : List Char :=
  subDocTGo segs l.length l

/-- One run of the script including the template-compilation error path:
`none` means `re.sub` raises `re.error` while compiling the replacement
template (before any matching, even with zero matches), so the run terminates
without printing and without rewriting the file. -/
def new_content_result (content : List Char) : Option (List Char) :=
  match parseTemplate (replTemplate (findErrors content)) with
  | none => none
  | some segs => some (subDocT segs content)

/-- The bytes written back to the file by a run: `none` = the run raised
`re.error` and the file was never opened for writing. -/
def fileResult (s : String) : Option String :=
  (new_content_result s.data).map String.mk

/-- The bytes emitted on standard output by a run: `none` = the run raised
`re.error` before printing. -/
def stdoutResult (s : String) : Option String :=
  (new_content_result s.data).map (fun t => pythonPrint (String.mk t))

/-! ### Elementary list lemmas -/

theorem take_append_le : ∀ (n : Nat) (x y : List Char), n ≤ x.length →
    (x ++ y).take n = x.take n := by
  intro n x
  induction x generalizing n with
  | nil => intro y h
           have hn : n = 0 := by simp at h; omega
           subst hn; simp
  | cons a xs ih =>
    intro y h
    cases n with
    | zero => simp
    | succ m => simp only [List.cons_append, List.take_succ_cons, List.take]
                exact congrArg (a :: ·) (ih m y (by simpa using h))

theorem drop_append_len : ∀ (x y : List Char), (x ++ y).drop x.length = y := by
  intro x y
  induction x with
  | nil => simp
  | cons a xs ih => simpa using ih

theorem take_take_le : ∀ (k m : Nat) (l : List Char), k ≤ m →
    (l.take m).take k = l.take k := by
  intro k m l
  induction l generalizing k m with
  | nil => simp
  | cons a xs ih =>
    intro h
    cases k with
    | zero => simp
    | succ k' =>
      cases m with
      | zero => omega
      | succ m' => simp only [List.take_succ_cons]
                   exact congrArg (a :: ·) (ih k' m' (by omega))

/-! ### Lemmas about `isPre` -/

theorem isPre_append_self : ∀ (p x : List Char), isPre p (p ++ x) = true := by
  intro p x
  induction p with
  | nil => simp [isPre]
  | cons a as ih => simp [isPre, ih]

theorem isPre_iff_take : ∀ (p l : List Char), isPre p l = true ↔ l.take p.length = p := by
  intro p
  induction p with
  | nil => intro l; simp [isPre]
  | cons a as ih =>
    intro l
    cases l with
    | nil => simp [isPre]
    | cons c cs =>
      by_cases hac : a = c
      · subst hac
        simp only [isPre, if_pos rfl, List.length_cons, List.take_succ_cons,
          List.cons.injEq, true_and]
        exact (ih cs).trans (by constructor <;> intro h <;> simp [h])
      · simp only [isPre, if_neg hac, List.length_cons, List.take_succ_cons,
          List.cons.injEq]
        constructor
        · intro h; simp at h
        · rintro ⟨h1, _⟩; exact absurd h1.symm hac

theorem isPre_length_le : ∀ (p l : List Char), isPre p l = true → p.length ≤ l.length := by
  intro p
  induction p with
  | nil => intro l _; simp
  | cons a as ih =>
    intro l h
    cases l with
    | nil => simp [isPre] at h
    | cons c cs =>
      simp only [isPre] at h
      by_cases hac : a = c
      · rw [if_pos hac] at h
        have := ih cs h
        simp only [List.length_cons]
        omega
      · rw [if_neg hac] at h; exact absurd h (by simp)

theorem isPre_head : ∀ (p : List Char) (c : Char) (z : List Char),
    isPre p (c :: z) = true → p ≠ [] → p.head? = some c := by
  intro p c z h hne
  cases p with
  | nil => exact absurd rfl hne
  | cons a as =>
    simp only [isPre] at h
    by_cases hac : a = c
    · simp [hac]
    · rw [if_neg hac] at h; exact absurd h (by simp)

theorem isPre_false_of_head_ne : ∀ (p : List Char) (a c : Char) (z : List Char),
    p.head? = some a → a ≠ c → isPre p (c :: z) = false := by
  intro p a c z hh hne
  cases p with
  | nil => simp at hh
  | cons b bs =>
    simp only [List.head?_cons, Option.some.injEq] at hh
    subst hh
    simp [isPre, if_neg hne]

/-! ### Lemmas about `splitFirst` -/

theorem splitFirst_some_len : ∀ (pat l r : List Char),
    splitFirst pat l = some r → r.length + pat.length ≤ l.length := by
  intro pat l
  induction l with
  | nil =>
    intro r h
    simp only [splitFirst] at h
    by_cases hp : isPre pat [] = true
    · cases pat with
      | nil => rw [if_pos hp] at h
               simp only [Option.some.injEq] at h
               subst h; simp
      | cons a as => simp [isPre] at hp
    · rw [if_neg (by simpa using hp)] at h; cases h
  | cons c cs ih =>
    intro r h
    simp only [splitFirst] at h
    by_cases hp : isPre pat (c :: cs) = true
    · rw [if_pos hp] at h
      simp only [Option.some.injEq] at h
      subst h
      have hlen := isPre_length_le pat (c :: cs) hp
      simp only [List.length_drop]
      omega
    · rw [if_neg (by simpa using hp)] at h
      have := ih r h
      simp only [List.length_cons]
      omega

theorem sf_none_cons : ∀ (pat : List Char) (c : Char) (r : List Char),
    splitFirst pat (c :: r) = none ↔
      isPre pat (c :: r) = false ∧ splitFirst pat r = none := by
  intro pat c r
  by_cases hp : isPre pat (c :: r) = true
  · simp [splitFirst, hp]
  · have hp' : isPre pat (c :: r) = false := by simpa using hp
    simp [splitFirst, hp']

theorem sf_none_drop : ∀ (pat l : List Char), splitFirst pat l = none →
    ∀ k, splitFirst pat (l.drop k) = none := by
  intro pat l
  induction l with
  | nil => intro h k; simpa using h
  | cons c cs ih =>
    intro h k
    cases k with
    | zero => simpa using h
    | succ k' =>
      have h2 := (sf_none_cons pat c cs).mp h
      simpa using ih h2.2 k'

theorem sf_app : ∀ (pat a x : List Char), pat ≠ [] →
    (∀ c ∈ a, pat.head? ≠ some c) →
    splitFirst pat (a ++ (pat ++ x)) = some x := by
  intro pat a
  induction a with
  | nil =>
    intro x hne _
    cases pat with
    | nil => exact absurd rfl hne
    | cons p ps =>
      simp only [List.nil_append, List.cons_append, splitFirst]
      rw [if_pos (by simpa using isPre_append_self (p :: ps) x)]
      have : ((p :: ps) ++ x).drop (p :: ps).length = x := drop_append_len _ _
      simp only [List.cons_append] at this
      simp [this]
  | cons b bs ih =>
    intro x hne hmem
    simp only [List.cons_append, splitFirst]
    rw [if_neg ?_]
    · exact ih x hne (fun c hc => hmem c (by simp [hc]))
    · intro hp
      have hh := isPre_head pat b (bs ++ (pat ++ x)) hp hne
      exact hmem b (by simp) hh

/-! ### Lemmas about `scanBody` and `tryMsg` -/

theorem scanBody_sound : ∀ (l b r : List Char), scanBody l = some (b, r) →
    l = b ++ '\"' :: r ∧ b ≠ [] ∧ '\n' ∉ b := by
  intro l
  induction l with
  | nil => intro b r h; simp [scanBody] at h
  | cons c rest ih =>
    intro b r h
    simp only [scanBody] at h
    by_cases hc : c = '\n'
    · rw [if_pos hc] at h; cases h
    · rw [if_neg hc] at h
      by_cases hq : rest.head? = some '\"'
      · rw [if_pos hq] at h
        simp only [Option.some.injEq, Prod.mk.injEq] at h
        obtain ⟨hb, hr⟩ := h
        subst hb; subst hr
        refine ⟨?_, by simp, by simp; exact fun h => hc h.symm⟩
        cases rest with
        | nil => simp at hq
        | cons q rt =>
          simp only [List.head?_cons, Option.some.injEq] at hq
          subst hq; simp
      · rw [if_neg hq] at h
        cases hsb : scanBody rest with
        | none => rw [hsb] at h; cases h
        | some p =>
          obtain ⟨b', r'⟩ := p
          rw [hsb] at h
          simp only [Option.some.injEq, Prod.mk.injEq] at h
          obtain ⟨hb, hr⟩ := h
          subst hb; subst hr
          obtain ⟨he, hne, hnl⟩ := ih b' r' hsb
          subst he
          exact ⟨by simp, by simp, by simp [hnl]; exact fun h => hc h.symm⟩

theorem tryMsg_sound : ∀ (l m rest : List Char), tryMsg l = some (m, rest) →
    ∃ d1 d2 d3 d4 b, m = 'E' :: d1 :: d2 :: d3 :: d4 :: ':' :: b ∧
      d1.isDigit = true ∧ d2.isDigit = true ∧ d3.isDigit = true ∧ d4.isDigit = true ∧
      b ≠ [] ∧ '\n' ∉ b ∧ l = 'E' :: d1 :: d2 :: d3 :: d4 :: ':' :: (b ++ '\"' :: rest) := by
  intro l m rest h
  rcases l with _ | ⟨e, l⟩
  · simp [tryMsg] at h
  rcases l with _ | ⟨d1, l⟩
  · simp [tryMsg] at h
  rcases l with _ | ⟨d2, l⟩
  · simp [tryMsg] at h
  rcases l with _ | ⟨d3, l⟩
  · simp [tryMsg] at h
  rcases l with _ | ⟨d4, l⟩
  · simp [tryMsg] at h
  rcases l with _ | ⟨c, r0⟩
  · simp [tryMsg] at h
  simp only [tryMsg] at h
  by_cases hcond : e = 'E' ∧ d1.isDigit = true ∧ d2.isDigit = true ∧ d3.isDigit = true ∧
      d4.isDigit = true ∧ c = ':'
  · rw [if_pos hcond] at h
    obtain ⟨he, h1, h2, h3, h4, hc⟩ := hcond
    subst he; subst hc
    cases hsb : scanBody r0 with
    | none => rw [hsb] at h; cases h
    | some p =>
      obtain ⟨b, r⟩ := p
      rw [hsb] at h
      simp only [Option.some.injEq, Prod.mk.injEq] at h
      obtain ⟨hm, hr⟩ := h
      subst hm; subst hr
      obtain ⟨hdec, hne, hnl⟩ := scanBody_sound r0 b r hsb
      exact ⟨d1, d2, d3, d4, b, rfl, h1, h2, h3, h4, hne, hnl, by rw [hdec]⟩
  · rw [if_neg hcond] at h; cases h

theorem findErrors_nil : findErrors [] = [] := rfl

theorem fe_cons_none : ∀ (r : List Char), tryMsg r = none →
    findErrors ('\"' :: r) = findErrors r := by
  intro r h
  simp [findErrors, findErrGo, if_pos rfl, h]

theorem headerL_len : headerL.length = 32 := by decide
theorem markerL_len : markerL.length = 15 := by decide
theorem headerL_hd : headerL.head? = some '/' := by decide
theorem markerL_hd : markerL.head? = some '#' := by decide
theorem markerL_ne : markerL ≠ [] := by decide
theorem hash_not_mem_headerL : '#' ∉ headerL := by decide
theorem isPre_headerL_nil : isPre headerL [] = false := by decide

/-! ### Fuel irrelevance and defining equations of `subDoc` -/

theorem subDocGo_fuel : ∀ (es : List (List Char)) (f g : Nat) (l : List Char),
    l.length ≤ f → l.length ≤ g → subDocGo es f l = subDocGo es g l := by
  intro es f
  induction f with
  | zero =>
    intro g l hf _
    have : l = [] := by cases l <;> simp_all
    subst this
    cases g <;> simp [subDocGo]
  | succ f' ih =>
    intro g l hf hg
    cases l with
    | nil => cases g <;> simp [subDocGo]
    | cons c r =>
      cases g with
      | zero => simp at hg
      | succ g' =>
        simp only [List.length_cons] at hf hg
        by_cases hp : isPre headerL (c :: r) = true
        · cases hsp : splitFirst markerL ((c :: r).drop headerL.length) with
          | some rest =>
            have hlen := splitFirst_some_len markerL _ rest hsp
            simp only [List.length_drop, List.length_cons, markerL_len] at hlen
            simp only [subDocGo, if_pos hp, hsp]
            exact congrArg (docRepl es ++ ·) (ih g' rest (by omega) (by omega))
          | none =>
            simp only [subDocGo, if_pos hp, hsp]
            exact congrArg (c :: ·) (ih g' r (by omega) (by omega))
        · simp only [subDocGo]
          rw [if_neg hp, if_neg hp]
          exact congrArg (c :: ·) (ih g' r (by omega) (by omega))

theorem subDoc_nil : ∀ (es : List (List Char)), subDoc es [] = [] := by
  intro es; rfl

theorem subDoc_cons_noPre : ∀ (es : List (List Char)) (c : Char) (r : List Char),
    isPre headerL (c :: r) = false → subDoc es (c :: r) = c :: subDoc es r := by
  intro es c r hp
  simp only [subDoc, List.length_cons, subDocGo]
  rw [if_neg (by simp [hp])]

theorem subDoc_cons_noMark : ∀ (es : List (List Char)) (c : Char) (r : List Char),
    splitFirst markerL ((c :: r).drop headerL.length) = none →
    subDoc es (c :: r) = c :: subDoc es r := by
  intro es c r hm
  by_cases hp : isPre headerL (c :: r) = true
  · simp only [subDoc, List.length_cons, subDocGo, if_pos hp, hm]
  · simp only [subDoc, List.length_cons, subDocGo]
    rw [if_neg hp]

theorem subDoc_match : ∀ (es : List (List Char)) (l rest : List Char),
    isPre headerL l = true → splitFirst markerL (l.drop headerL.length) = some rest →
    subDoc es l = docRepl es ++ subDoc es rest := by
  intro es l rest hp hm
  cases l with
  | nil => rw [isPre_headerL_nil] at hp; cases hp
  | cons c r =>
    have hlen := splitFirst_some_len markerL _ rest hm
    simp only [List.length_drop, List.length_cons, markerL_len] at hlen
    simp only [subDoc, List.length_cons, subDocGo, if_pos hp, hm]
    exact congrArg (docRepl es ++ ·) (subDocGo_fuel es r.length rest.length rest (by omega) le_rfl)

/-! ### Structural lemmas about `subDoc` -/

theorem subDoc_skip : ∀ (es : List (List Char)) (a z : List Char),
    (∀ c ∈ a, c ≠ '/') → subDoc es (a ++ z) = a ++ subDoc es z := by
  intro es a
  induction a with
  | nil => intro z _; simp
  | cons c a' ih =>
    intro z h
    have hp : isPre headerL (c :: (a' ++ z)) = false :=
      isPre_false_of_head_ne headerL '/' c _ headerL_hd (fun he => h c (by simp) he.symm)
    simp only [List.cons_append]
    rw [subDoc_cons_noPre es c (a' ++ z) hp]
    rw [ih z (fun d hd => h d (by simp [hd]))]

theorem subDoc_block : ∀ (es : List (List Char)) (m x : List Char), '#' ∉ m →
    subDoc es (headerL ++ (m ++ (markerL ++ x))) = docRepl es ++ subDoc es x := by
  intro es m x hm
  have hp : isPre headerL (headerL ++ (m ++ (markerL ++ x))) = true :=
    isPre_append_self headerL _
  have hd : (headerL ++ (m ++ (markerL ++ x))).drop headerL.length = m ++ (markerL ++ x) :=
    drop_append_len headerL _
  have hsf : splitFirst markerL (m ++ (markerL ++ x)) = some x := by
    refine sf_app markerL m x markerL_ne ?_
    intro c hc
    rw [markerL_hd]
    intro he
    have : '#' = c := by injection he
    exact hm (this ▸ hc)
  rw [subDoc_match es _ x hp (by rw [hd]; exact hsf)]

theorem subDoc_noHeader : ∀ (es : List (List Char)) (l : List Char),
    splitFirst headerL l = none → subDoc es l = l := by
  intro es l
  induction l with
  | nil => intro _; exact subDoc_nil es
  | cons c r ih =>
    intro h
    obtain ⟨hp, hrest⟩ := (sf_none_cons headerL c r).mp h
    rw [subDoc_cons_noPre es c r hp, ih hrest]

theorem hdr_no_marker : ∀ (h l : List Char), isPre h l = true → (∀ c ∈ h, c ≠ '#') →
    splitFirst markerL (l.drop h.length) = none → splitFirst markerL l = none := by
  intro h
  induction h with
  | nil => intro l _ _ hs; simpa using hs
  | cons a h' ih =>
    intro l hp hmem hs
    cases l with
    | nil => decide
    | cons b l' =>
      simp only [isPre] at hp
      by_cases hab : a = b
      · rw [if_pos hab] at hp
        refine (sf_none_cons markerL b l').mpr ⟨?_, ?_⟩
        · exact isPre_false_of_head_ne markerL '#' b l' markerL_hd
            (fun he => hmem a (by simp) (by rw [hab, ← he]))
        · exact ih l' hp (fun d hd => hmem d (by simp [hd]))
            (by simpa using hs)
      · rw [if_neg hab] at hp; cases hp

theorem subDoc_noMarker : ∀ (es : List (List Char)) (l : List Char),
    splitFirst markerL l = none → subDoc es l = l := by
  intro es l
  induction l with
  | nil => intro _; exact subDoc_nil es
  | cons c r ih =>
    intro h
    obtain ⟨_, hrest⟩ := (sf_none_cons markerL c r).mp h
    rw [subDoc_cons_noMark es c r (sf_none_drop markerL (c :: r) h headerL.length)]
    rw [ih hrest]

/-! ### Shape of extracted messages -/

theorem findErrGo_shape : ∀ (f : Nat) (l m : List Char), m ∈ findErrGo f l →
    ∃ d1 d2 d3 d4 b, m = 'E' :: d1 :: d2 :: d3 :: d4 :: ':' :: b ∧
      d1.isDigit = true ∧ d2.isDigit = true ∧ d3.isDigit = true ∧ d4.isDigit = true ∧
      b ≠ [] ∧ '\n' ∉ b := by
  intro f
  induction f with
  | zero => intro l m hm; simp [findErrGo] at hm
  | succ f' ih =>
    intro l m hm
    cases l with
    | nil => simp [findErrGo] at hm
    | cons c r =>
      by_cases hc : c = '\"'
      · subst hc
        cases htm : tryMsg r with
        | some p =>
          obtain ⟨m0, rest⟩ := p
          simp only [findErrGo, htm, List.mem_cons, if_true, ite_true] at hm
          rcases hm with hm | hm
          · obtain ⟨d1, d2, d3, d4, b, he, h1, h2, h3, h4, hne, hnl, _⟩ :=
              tryMsg_sound r m0 rest htm
            exact ⟨d1, d2, d3, d4, b, hm.trans he, h1, h2, h3, h4, hne, hnl⟩
          · exact ih rest m hm
        | none =>
          simp only [findErrGo, htm, if_true, ite_true] at hm
          exact ih r m hm
      · simp only [findErrGo, if_neg hc] at hm
        exact ih r m hm

theorem findErrors_shape : ∀ (l m : List Char), m ∈ findErrors l →
    ∃ d1 d2 d3 d4 b, m = 'E' :: d1 :: d2 :: d3 :: d4 :: ':' :: b ∧
      d1.isDigit = true ∧ d2.isDigit = true ∧ d3.isDigit = true ∧ d4.isDigit = true ∧
      b ≠ [] ∧ '\n' ∉ b := by
  intro l m hm
  exact findErrGo_shape l.length l m hm

/-! ### The replacement block and the `#` character -/

theorem joinDoc_mem : ∀ (es : List (List Char)) (c : Char), c ∈ joinDoc es →
    c ∈ sepL ∨ ∃ e ∈ es, c ∈ e := by
  intro es
  induction es with
  | nil => intro c hc; simp [joinDoc] at hc
  | cons e es' ih =>
    intro c hc
    cases es' with
    | nil =>
      simp only [joinDoc] at hc
      exact Or.inr ⟨e, by simp, hc⟩
    | cons f es'' =>
      simp only [joinDoc, List.append_assoc, List.mem_append] at hc
      rcases hc with hc | hc | hc
      · exact Or.inr ⟨e, by simp, hc⟩
      · exact Or.inl hc
      · rcases ih c hc with h | ⟨e', he', hce'⟩
        · exact Or.inl h
        · exact Or.inr ⟨e', by simp [he'], hce'⟩

theorem hash_docMid : ∀ (es : List (List Char)), (∀ e ∈ es, '#' ∉ e) →
    '#' ∉ docMid es := by
  intro es h hc
  simp only [docMid, List.append_assoc, List.mem_append] at hc
  rcases hc with hc | hc | hc
  · exact absurd hc (by decide)
  · rcases joinDoc_mem es '#' hc with h1 | ⟨e, he, hce⟩
    · exact absurd h1 (by decide)
    · exact h e he hce
  · exact absurd hc (by decide)

/-! ### The substitution does not change the first 32 characters -/

theorem subDoc_take_agree : ∀ (es : List (List Char)) (n : Nat) (l : List Char) (k : Nat),
    l.length ≤ n → k ≤ headerL.length → (subDoc es l).take k = l.take k := by
  intro es n
  induction n with
  | zero =>
    intro l k hl _
    have : l = [] := by cases l <;> simp_all
    subst this
    rw [subDoc_nil]
  | succ n' ih =>
    intro l k hl hk
    cases l with
    | nil => rw [subDoc_nil]
    | cons c r =>
      simp only [List.length_cons] at hl
      by_cases hp : isPre headerL (c :: r) = true
      · cases hsp : splitFirst markerL ((c :: r).drop headerL.length) with
        | some rest =>
          rw [subDoc_match es _ rest hp hsp]
          have h1 : (docRepl es ++ subDoc es rest).take k = (docRepl es).take k := by
            refine take_append_le k _ _ ?_
            simp only [docRepl, List.length_append]
            omega
          have h2 : (docRepl es).take k = headerL.take k := by
            have : docRepl es = headerL ++ (docMid es ++ markerL) := by
              simp [docRepl, List.append_assoc]
            rw [this]
            exact take_append_le k _ _ hk
          have h3 : (c :: r).take k = headerL.take k := by
            have ht := (isPre_iff_take headerL (c :: r)).mp hp
            calc (c :: r).take k = ((c :: r).take headerL.length).take k :=
                  (take_take_le k headerL.length (c :: r) hk).symm
            _ = headerL.take k := by rw [ht]
          rw [h1, h2, h3]
        | none =>
          rw [subDoc_cons_noMark es c r hsp]
          cases k with
          | zero => simp
          | succ k' =>
            simp only [List.take_succ_cons]
            rw [headerL_len] at hk
            exact congrArg (c :: ·) (ih r k' (by omega) (by rw [headerL_len]; omega))
      · have hp' : isPre headerL (c :: r) = false := by simpa using hp
        rw [subDoc_cons_noPre es c r hp']
        cases k with
        | zero => simp
        | succ k' =>
          simp only [List.take_succ_cons]
          rw [headerL_len] at hk
          exact congrArg (c :: ·) (ih r k' (by omega) (by rw [headerL_len]; omega))

/-! ### Idempotence of the substitution pass for a fixed message list -/

theorem subDoc_repl : ∀ (es : List (List Char)) (x : List Char), '#' ∉ docMid es →
    subDoc es (docRepl es ++ x) = docRepl es ++ subDoc es x := by
  intro es x hG
  have h : docRepl es ++ x = headerL ++ (docMid es ++ (markerL ++ x)) := by
    simp [docRepl, List.append_assoc]
  rw [h, subDoc_block es (docMid es) x hG]

theorem subDoc_idem : ∀ (es : List (List Char)), '#' ∉ docMid es →
    ∀ (n : Nat) (l : List Char), l.length ≤ n →
    subDoc es (subDoc es l) = subDoc es l := by
  intro es hG n
  induction n with
  | zero =>
    intro l hl
    have : l = [] := by cases l <;> simp_all
    subst this
    rw [subDoc_nil, subDoc_nil]
  | succ n' ih =>
    intro l hl
    cases l with
    | nil => rw [subDoc_nil, subDoc_nil]
    | cons c r =>
      simp only [List.length_cons] at hl
      by_cases hp : isPre headerL (c :: r) = true
      · cases hsp : splitFirst markerL ((c :: r).drop headerL.length) with
        | some rest =>
          have hlen := splitFirst_some_len markerL _ rest hsp
          simp only [List.length_drop, List.length_cons, markerL_len, headerL_len] at hlen
          rw [subDoc_match es _ rest hp hsp, subDoc_repl es _ hG]
          exact congrArg (docRepl es ++ ·) (ih rest (by omega))
        | none =>
          have hnone : splitFirst markerL (c :: r) = none :=
            hdr_no_marker headerL (c :: r) hp
              (fun d hd he => hash_not_mem_headerL (he ▸ hd)) hsp
          rw [subDoc_noMarker es _ hnone, subDoc_noMarker es _ hnone]
      · have hp' : isPre headerL (c :: r) = false := by simpa using hp
        have hagree := subDoc_take_agree es (n' + 1) (c :: r) headerL.length
          (by simpa using hl) le_rfl
        rw [subDoc_cons_noPre es c r hp'] at hagree ⊢
        have hp2 : isPre headerL (c :: subDoc es r) = false := by
          cases hx : isPre headerL (c :: subDoc es r)
          · rfl
          · exfalso
            have ht := (isPre_iff_take headerL _).mp hx
            rw [hagree] at ht
            rw [(isPre_iff_take headerL _).mpr ht] at hp'
            cases hp'
        rw [subDoc_cons_noPre es c (subDoc es r) hp2]
        exact congrArg (c :: ·) (ih r (by omega))

/-! ### Extraction over assembled texts -/

theorem splitLines_cases : ∀ (l : List Char), ∃ h t, splitLines l = h :: t := by
  intro l
  induction l with
  | nil => exact ⟨[], [], rfl⟩
  | cons c r ih =>
    by_cases hc : c = '\n'
    · exact ⟨[], splitLines r, by simp [splitLines, hc]⟩
    · obtain ⟨h, t, he⟩ := ih
      exact ⟨c :: h, t, by simp [splitLines, hc, he]⟩

theorem splitAtGt_len : ∀ (l name rest : List Char),
    splitAtGt l = some (name, rest) → rest.length < l.length := by
  intro l
  induction l with
  | nil => intro name rest h; simp [splitAtGt] at h
  | cons c r ih =>
    intro name rest h
    simp only [splitAtGt] at h
    by_cases hc : c = '>'
    · rw [if_pos hc] at h
      simp only [Option.some.injEq, Prod.mk.injEq] at h
      obtain ⟨-, h2⟩ := h
      subst h2
      simp
    · rw [if_neg hc] at h
      cases hs : splitAtGt r with
      | none => rw [hs] at h; cases h
      | some p =>
        obtain ⟨n2, r2⟩ := p
        rw [hs] at h
        simp only [Option.map_some', Option.some.injEq, Prod.mk.injEq] at h
        obtain ⟨-, h2⟩ := h
        subst h2
        have := ih n2 r2 hs
        simp only [List.length_cons]
        omega

theorem parseEsc_len : ∀ (r : List Char) (ts : List Tmpl) (rest : List Char),
    parseEsc r = EscRes.toks ts rest → rest.length ≤ r.length := by
  intro r ts rest h
  cases r with
  | nil => simp [parseEsc] at h
  | cons e r2 =>
    simp only [parseEsc] at h
    split at h
    · -- e = 'g'
      split at h
      · split at h
        · cases h
        · rename_i r3 name r4 heq
          have hlen := splitAtGt_len _ _ _ heq
          split at h
          · split at h
            · simp only [EscRes.toks.injEq] at h
              obtain ⟨-, h2⟩ := h
              subst h2
              simp only [List.length_cons]
              omega
            · cases h
          · cases h
      · cases h
    · -- all remaining escape forms return a suffix of the input
      repeat' split at h
      all_goals cases h
      all_goals (simp only [List.length_cons, List.length_nil]; omega)

theorem ptGo_fuel : ∀ (f g : Nat) (l : List Char),
    l.length ≤ f → l.length ≤ g → ptGo f l = ptGo g l := by
  intro f
  induction f with
  | zero =>
    intro g l hf _
    have : l = [] := by cases l <;> simp_all
    subst this
    cases g <;> simp [ptGo]
  | succ f' ih =>
    intro g l hf hg
    cases l with
    | nil => cases g <;> simp [ptGo]
    | cons c r =>
      cases g with
      | zero => simp at hg
      | succ g' =>
        simp only [List.length_cons] at hf hg
        by_cases hc : c = '\\'
        · cases hpe : parseEsc r with
          | fail => simp only [ptGo, if_pos hc, hpe]
          | toks ts rest =>
            have hlen := parseEsc_len r ts rest hpe
            simp only [ptGo, if_pos hc, hpe]
            rw [ih g' rest (by omega) (by omega)]
        · simp only [ptGo]
          rw [if_neg hc, if_neg hc, ih g' r (by omega) (by omega)]

theorem pt_nil : parseTemplate [] = some [] := rfl

theorem pt_cons_lit : ∀ (c : Char) (r : List Char), c ≠ '\\' →
    parseTemplate (c :: r) = (parseTemplate r).map (Tmpl.lit c :: ·) := by
  intro c r hc
  simp only [parseTemplate, List.length_cons, ptGo]
  rw [if_neg hc]

theorem pt_cons_esc : ∀ (r : List Char) (ts : List Tmpl) (rest : List Char),
    parseEsc r = EscRes.toks ts rest →
    parseTemplate ('\\' :: r) = (parseTemplate rest).map (ts ++ ·) := by
  intro r ts rest h
  have hlen := parseEsc_len r ts rest h
  simp only [parseTemplate, List.length_cons, ptGo, if_pos rfl, h, if_true, ite_true]
  rw [ptGo_fuel r.length rest.length rest (by omega) le_rfl]

theorem pt_cons_esc_fail : ∀ (r : List Char), parseEsc r = EscRes.fail →
    parseTemplate ('\\' :: r) = none := by
  intro r h
  simp only [parseTemplate, List.length_cons, ptGo, if_pos rfl, h, if_true, ite_true]

theorem pt_lits : ∀ (a z : List Char), (∀ c ∈ a, c ≠ '\\') →
    parseTemplate (a ++ z) = (parseTemplate z).map (a.map Tmpl.lit ++ ·) := by
  intro a
  induction a with
  | nil =>
    intro z _
    cases h : parseTemplate z <;> simp [h]
  | cons c a' ih =>
    intro z h
    have hc : c ≠ '\\' := h c (by simp)
    simp only [List.cons_append]
    rw [pt_cons_lit c (a' ++ z) hc, ih z (fun d hd => h d (by simp [hd]))]
    cases parseTemplate z <;> simp

theorem pe_g1 : ∀ (z : List Char),
    parseEsc ('g' :: '<' :: '1' :: '>' :: z) = EscRes.toks [Tmpl.grp 1] z := by
  intro z
  simp [parseEsc, splitAtGt, natOfDigits]

theorem pe_g2 : ∀ (z : List Char),
    parseEsc ('g' :: '<' :: '2' :: '>' :: z) = EscRes.toks [Tmpl.grp 2] z := by
  intro z
  simp [parseEsc, splitAtGt, natOfDigits]

theorem pe_n : ∀ (z : List Char),
    parseEsc ('n' :: z) = EscRes.toks [Tmpl.lit '\n'] z := by
  intro z
  simp [parseEsc, escChar, isAsciiLetter]

theorem replTemplate_shape : ∀ (es : List (List Char)),
    replTemplate es = '\\' :: 'g' :: '<' :: '1' :: '>' ::
      ('\\' :: 'n' :: (slashSp ++ joinDoc es ++
        ('\\' :: 'n' :: ('\\' :: 'g' :: '<' :: '2' :: '>' :: [])))) := by
  intro es
  have h1 : ("\\g<1>\\n/// ").toList =
      '\\' :: 'g' :: '<' :: '1' :: '>' :: '\\' :: 'n' :: slashSp := by decide
  have h2 : ("\\n\\g<2>").toList =
      '\\' :: 'n' :: ('\\' :: 'g' :: '<' :: '2' :: '>' :: []) := by decide
  have h3 : slashSp = '/' :: '/' :: '/' :: ' ' :: [] := by decide
  simp [replTemplate, h1, h2, h3, List.append_assoc]

theorem pt_template : ∀ (es : List (List Char)), (∀ e ∈ es, '\\' ∉ e) →
    parseTemplate (replTemplate es) = some (fixedSegs es) := by
  intro es h
  have hbs : ∀ c ∈ slashSp ++ joinDoc es, c ≠ '\\' := by
    intro c hc he
    subst he
    rcases List.mem_append.mp hc with h1 | h1
    · exact absurd h1 (by decide)
    · rcases joinDoc_mem es '\\' h1 with h2 | ⟨e, he2, hce⟩
      · exact absurd h2 (by decide)
      · exact h e he2 hce
  rw [replTemplate_shape es]
  rw [pt_cons_esc _ _ _ (pe_g1 _)]
  rw [pt_cons_esc _ _ _ (pe_n _)]
  rw [show slashSp ++ joinDoc es ++ ('\\' :: 'n' :: ('\\' :: 'g' :: '<' :: '2' :: '>' :: [])) =
      (slashSp ++ joinDoc es) ++ ('\\' :: 'n' :: ('\\' :: 'g' :: '<' :: '2' :: '>' :: []))
    from by simp [List.append_assoc]]
  rw [pt_lits _ _ hbs]
  rw [pt_cons_esc _ _ _ (pe_n _)]
  rw [pt_cons_esc _ _ _ (pe_g2 _)]
  rw [pt_nil]
  simp [fixedSegs]

/-! ### Expansion of the parsed template -/

theorem expandT_lits : ∀ (a : List Char) (rest : List Tmpl) (w : List Char),
    expandT (a.map Tmpl.lit ++ rest) w = a ++ expandT rest w := by
  intro a
  induction a with
  | nil => intro rest w; simp
  | cons c a' ih =>
    intro rest w
    simp only [List.map_cons, List.cons_append, expandT, List.append_eq, ih]

theorem expandT_grp1 : ∀ (rest : List Tmpl) (w : List Char),
    expandT (Tmpl.grp 1 :: rest) w = headerL ++ expandT rest w := by
  intro rest w; rfl

theorem expandT_grp2 : ∀ (rest : List Tmpl) (w : List Char),
    expandT (Tmpl.grp 2 :: rest) w = markerL ++ expandT rest w := by
  intro rest w; rfl

theorem expandT_lit : ∀ (c : Char) (rest : List Tmpl) (w : List Char),
    expandT (Tmpl.lit c :: rest) w = c :: expandT rest w := by
  intro c rest w; rfl

theorem expandT_fixed : ∀ (es : List (List Char)) (w : List Char),
    expandT (fixedSegs es) w = docRepl es := by
  intro es w
  have h : expandT (fixedSegs es) w =
      headerL ++ '\n' :: ((slashSp ++ joinDoc es) ++ '\n' :: (markerL ++ expandT [] w)) := by
    simp only [fixedSegs, expandT_grp1, expandT_lit, expandT_lits, expandT_grp2]
  rw [h]
  simp [expandT, docRepl, docMid, sepL, List.append_assoc]

/-! ### The loop with a literal-only template equals the plain loop -/

theorem splitFirstPre_snd : ∀ (pat l : List Char),
    splitFirst pat l = (splitFirstPre pat l).map Prod.snd := by
  intro pat l
  induction l with
  | nil =>
    by_cases h : isPre pat [] = true
    · simp [splitFirst, splitFirstPre, h]
    · have h' : isPre pat [] = false := by simpa using h
      simp [splitFirst, splitFirstPre, h']
  | cons c r ih =>
    simp only [splitFirst, splitFirstPre]
    split
    · simp
    · rw [ih]
      cases splitFirstPre pat r <;> simp

theorem subDocTGo_eq : ∀ (segs : List Tmpl) (es : List (List Char)),
    (∀ w, expandT segs w = docRepl es) →
    ∀ (f : Nat) (l : List Char), subDocTGo segs f l = subDocGo es f l := by
  intro segs es hx f
  induction f with
  | zero => intro l; rfl
  | succ f' ih =>
    intro l
    cases l with
    | nil => rfl
    | cons c r =>
      by_cases hp : isPre headerL (c :: r) = true
      · have hsnd := splitFirstPre_snd markerL ((c :: r).drop headerL.length)
        cases hsp : splitFirstPre markerL ((c :: r).drop headerL.length) with
        | some p =>
          obtain ⟨gap, rest⟩ := p
          rw [hsp] at hsnd
          simp only [Option.map_some'] at hsnd
          simp only [subDocTGo, subDocGo, if_pos hp, hsp, hsnd, hx, ih]
        | none =>
          rw [hsp] at hsnd
          simp only [Option.map_none'] at hsnd
          simp only [subDocTGo, subDocGo, if_pos hp, hsp, hsnd, ih]
      · simp only [subDocTGo, subDocGo]
        rw [if_neg hp, if_neg hp, ih]

/-- Bridge: when no extracted message contains a backslash, the template
parses, each match is replaced by the literal-splice block `docRepl`, and the
run succeeds producing exactly `new_content`. -/
theorem new_content_result_eq : ∀ (l : List Char),
    (∀ e ∈ findErrors l, '\\' ∉ e) →
    new_content_result l = some (new_content l) := by
  intro l h
  have hpt := pt_template (findErrors l) h
  simp only [new_content_result, hpt]
  have heq := subDocTGo_eq (fixedSegs (findErrors l)) (findErrors l)
    (fun w => expandT_fixed (findErrors l) w) l.length l
  simp only [subDocT, heq]
  rfl

/-! ### Auxiliary facts about well-formed messages -/

theorem msg_no_nl : ∀ (d1 d2 d3 d4 : Char) (b : List Char),
    d1.isDigit = true → d2.isDigit = true → d3.isDigit = true → d4.isDigit = true →
    '\n' ∉ b → '\n' ∉ ('E' :: d1 :: d2 :: d3 :: d4 :: ':' :: b) := by
  intro d1 d2 d3 d4 b h1 h2 h3 h4 hb hm
  simp only [List.mem_cons] at hm
  have hdig : ∀ d : Char, d.isDigit = true → '\n' = d → False := by
    intro d hd he
    rw [← he] at hd
    exact absurd hd (by decide)
  rcases hm with h | h | h | h | h | h | h
  · exact absurd h (by decide)
  · exact hdig d1 h1 h
  · exact hdig d2 h2 h
  · exact hdig d3 h3 h
  · exact hdig d4 h4 h
  · exact absurd h (by decide)
  · exact hb h

/-! ### C1 -/

/-- C1 (counterexample): for the input consisting of exactly the header line
followed by the end-marker line — the marker pair is present and there is no
matching string literal — the transformation does not produce a block with the
header immediately followed by the end marker: it inserts a stray `/// ` line
(the `"\n/// "` prefix survives joining the empty message list). -/
theorem c1_counterexample :
    findErrors (("/// Macro to produce nice errors\n#[macro_export]").data) = [] ∧
    new_content (("/// Macro to produce nice errors\n#[macro_export]").data) =
      ("/// Macro to produce nice errors\n/// \n#[macro_export]").data ∧
    ("/// Macro to produce nice errors\n/// \n#[macro_export]").data ≠
      ("/// Macro to produce nice errors\n#[macro_export]").data :=
  ⟨by decide, by decide, by decide⟩

/-- C1 (amended): for an input of the form `a ++ header ++ m ++ marker ++ b`
with no `/` in `a`, no `#` in the block interior `m`, no header occurrence in
`b`, and no matching string literal anywhere, the regenerated documentation
block consists of the header line, then one line `/// ` (the doc-comment
prefix with an empty listing), then the end marker. -/
theorem c1_amended : ∀ (a m b : List Char),
    (∀ c ∈ a, c ≠ '/') → '#' ∉ m → splitFirst headerL b = none →
    findErrors (a ++ headerL ++ m ++ markerL ++ b) = [] →
    new_content (a ++ headerL ++ m ++ markerL ++ b) =
      a ++ headerL ++ sepL ++ ('\n' :: markerL) ++ b := by
  intro a m b ha hm hb hfe
  have h1 : a ++ headerL ++ m ++ markerL ++ b =
      a ++ (headerL ++ (m ++ (markerL ++ b))) := by
    simp [List.append_assoc]
  show subDoc (findErrors (a ++ headerL ++ m ++ markerL ++ b)) _ = _
  rw [hfe, h1, subDoc_skip [] a _ ha, subDoc_block [] m b hm, subDoc_noHeader [] b hb]
  simp [docRepl, docMid, joinDoc, List.append_assoc]

/-- C1 (witness): concrete instance of the amended statement. -/
theorem c1_witness :
    new_content ((("x\n").data) ++ headerL ++ (("\nold\n").data) ++ markerL ++
        (("\nrest").data)) =
      (("x\n").data) ++ headerL ++ sepL ++ ('\n' :: markerL) ++ (("\nrest").data) :=
  c1_amended (("x\n").data) (("\nold\n").data) (("\nrest").data)
    (by decide) (by decide) (by decide) (by decide)

/-! ### C2 -/

/-- C2 (counterexample): standard output and the file contents differ — Python
`print` appends a newline, `fw.write` does not.  Already on the empty input the
two byte sequences are distinct. -/
theorem c2_counterexample :
    stdoutOutput ("") = ("\n") ∧ fileOutput ("") = ("") ∧
    stdoutOutput ("") ≠ fileOutput ("") :=
  ⟨by decide, by decide, by decide⟩

/-- C2 (amended): for every input, standard output receives exactly the bytes
written to the file followed by one extra newline (the line terminator of
`print`). -/
theorem c2_amended : ∀ (s : String), stdoutOutput s = fileOutput s ++ ("\n") := by
  intro s; rfl

/-! ### C3 -/

/-- C3 (counterexample): the transformation is not idempotent.  If a matching
literal sits inside the documentation block, the first pass lists it but also
deletes it (the whole block is replaced), so a second pass regenerates an
empty listing and the text changes again. -/
theorem c3_counterexample :
    new_content (new_content
        (("/// Macro to produce nice errors\n\"E0001: x\"\n#[macro_export]").data)) ≠
      new_content (("/// Macro to produce nice errors\n\"E0001: x\"\n#[macro_export]").data) ∧
    new_content (("/// Macro to produce nice errors\n\"E0001: x\"\n#[macro_export]").data) =
      ("/// Macro to produce nice errors\n/// E0001: x\n#[macro_export]").data ∧
    new_content (("/// Macro to produce nice errors\n/// E0001: x\n#[macro_export]").data) =
      ("/// Macro to produce nice errors\n/// \n#[macro_export]").data :=
  ⟨by decide, by decide, by decide⟩

/-- C3 (amended): the transformation is idempotent on every input whose
extracted message sequence is unchanged by the rewrite (no matching literal is
destroyed or created by replacing the blocks) and whose extracted messages
contain neither `#` (a listed message could otherwise recreate the end marker
in the regenerated block) nor a backslash (messages are spliced into the
replacement template, which Python re-parses: `\g<2>` in a message would
inject the end marker, `\n` a newline, and a bad escape such as `\d` aborts
the run with `re.error`).  Under these conditions both runs succeed and the
second reproduces the first's output. -/
theorem c3_amended : ∀ (l : List Char),
    findErrors (new_content l) = findErrors l →
    (∀ e ∈ findErrors l, '#' ∉ e ∧ '\\' ∉ e) →
    new_content_result l = some (new_content l) ∧
    new_content_result (new_content l) = some (new_content l) := by
  intro l h1 h2
  have hbs : ∀ e ∈ findErrors l, '\\' ∉ e := fun e he => (h2 e he).2
  have hG : '#' ∉ docMid (findErrors l) := hash_docMid _ (fun e he => (h2 e he).1)
  have hidem : new_content (new_content l) = new_content l := by
    show subDoc (findErrors (new_content l)) (new_content l) = new_content l
    rw [h1]
    exact subDoc_idem (findErrors l) hG l.length l le_rfl
  refine ⟨new_content_result_eq l hbs, ?_⟩
  have hbs2 : ∀ e ∈ findErrors (new_content l), '\\' ∉ e := by
    rw [h1]; exact hbs
  rw [new_content_result_eq (new_content l) hbs2, hidem]

/-- C3 (witness): an input with a literal outside the block, where the amended
idempotence applies: both runs succeed and agree. -/
theorem c3_witness :
    findErrors (new_content
        (("\"E0001: x\"\n/// Macro to produce nice errors\n#[macro_export]").data)) =
      findErrors (("\"E0001: x\"\n/// Macro to produce nice errors\n#[macro_export]").data) ∧
    (new_content_result (("\"E0001: x\"\n/// Macro to produce nice errors\n#[macro_export]").data) =
      some (new_content (("\"E0001: x\"\n/// Macro to produce nice errors\n#[macro_export]").data)) ∧
    new_content_result (new_content
        (("\"E0001: x\"\n/// Macro to produce nice errors\n#[macro_export]").data)) =
      some (new_content (("\"E0001: x\"\n/// Macro to produce nice errors\n#[macro_export]").data))) :=
  ⟨by decide,
    c3_amended (("\"E0001: x\"\n/// Macro to produce nice errors\n#[macro_export]").data)
      (by decide) (by decide)⟩

/-! ### C4 -/

/-- C4 (confirmed): the substitution pass rebuilds the block from exactly the
messages extracted from the original, unmodified input (`new_content` is,
definitionally, `subDoc` applied with `findErrors` of the same original text).
The second conjunct exhibits an input where this matters: extracting from the
rewritten content instead would produce a different result. -/
theorem c4_same_source :
    (∀ l : List Char, new_content l = subDoc (findErrors l) l) ∧
    subDoc (findErrors (new_content
        (("/// Macro to produce nice errors\n\"E0001: x\"\n#[macro_export]").data)))
      (("/// Macro to produce nice errors\n\"E0001: x\"\n#[macro_export]").data) ≠
      new_content (("/// Macro to produce nice errors\n\"E0001: x\"\n#[macro_export]").data) :=
  ⟨fun _ => rfl, by decide⟩

/-! ### C5 -/

/-- C6 (counterexample): absence of the marker pair is not always a no-op
success.  `re.sub` compiles the replacement template — into which the
extracted messages were spliced — before looking for matches, so an input
with no header anywhere whose text contains the literal `"E0001: \d"` makes
the run raise `re.error` (bad escape `\d`) and terminate without rewriting
the file at all, instead of rewriting it with identical content. -/
theorem c6_counterexample :
    splitFirst headerL (("no block here \"E0001: \\d\"").data) = none ∧
    findErrors (("no block here \"E0001: \\d\"").data) = [("E0001: \\d").data] ∧
    fileResult ("no block here \"E0001: \\d\"") = none ∧
    fileResult ("no block here \"E0001: \\d\"") ≠ some ("no block here \"E0001: \\d\"") :=
  ⟨by decide, by decide, by decide, by decide⟩

/-- C6 (amended): when the header or the end marker does not occur in the
input and no extracted message contains a backslash (so the replacement
template compiles), the substitution finds no match, the run succeeds, and
the file is rewritten with content identical to the original — a no-op
success, not an error.  If instead the template fails to compile (a bad
escape such as `\d` inside a message), the run terminates with `re.error`
and never rewrites the file, even though the marker pair is absent. -/
theorem c6_amended : ∀ (s : String),
    splitFirst headerL s.data = none ∨ splitFirst markerL s.data = none →
    (∀ e ∈ findErrors s.data, '\\' ∉ e) →
    fileResult s = some s := by
  intro s hpair hbs
  obtain ⟨d⟩ := s
  have hid : new_content d = d := by
    show subDoc (findErrors d) d = d
    rcases hpair with h | h
    · exact subDoc_noHeader (findErrors d) d h
    · exact subDoc_noMarker (findErrors d) d h
  show (new_content_result d).map String.mk = some (String.mk d)
  rw [new_content_result_eq d hbs, hid]
  rfl

/-- C6 (witness): a text without the marker pair and without backslashes in
its one extracted message is passed through untouched. -/
theorem c6_witness :
    (splitFirst headerL (("no documentation block here\n\"E0001: kept\"\n").data) = none ∨
      splitFirst markerL (("no documentation block here\n\"E0001: kept\"\n").data) = none) ∧
    fileResult ("no documentation block here\n\"E0001: kept\"\n") =
      some ("no documentation block here\n\"E0001: kept\"\n") :=
  ⟨Or.inl (by decide),
    c6_amended ("no documentation block here\n\"E0001: kept\"\n")
      (Or.inl (by decide)) (by decide)⟩

/-! ### C7 -/

set_option maxRecDepth 16000

/-- C7 (confirmed): on the spec's example input — a literal `"E0001: bad
input"`, later a literal `"E0002: missing field"`, and a marker block — the
rewritten documentation block is the header line, `/// E0001: bad input`,
`/// E0002: missing field`, and the end marker, in that order. -/
theorem c7_example :
    fileOutput ("let a = \"E0001: bad input\";\nlet b = \"E0002: missing field\";\n/// Macro to produce nice errors\n/// old\n#[macro_export]\npub fn f()") =
      ("let a = \"E0001: bad input\";\nlet b = \"E0002: missing field\";\n/// Macro to produce nice errors\n/// E0001: bad input\n/// E0002: missing field\n#[macro_export]\npub fn f()") := by
  decide

/-! ### C8 -/

/-- C8 (confirmed): every extracted message starts with `E`, exactly four
decimal digits and a colon (the character after the four digits is the colon,
so a literal like `"E12: short"` is never extracted). -/
theorem c8_four_digits : ∀ (l m : List Char), m ∈ findErrors l →
    ∃ d1 d2 d3 d4 rest, m = 'E' :: d1 :: d2 :: d3 :: d4 :: ':' :: rest ∧
      d1.isDigit = true ∧ d2.isDigit = true ∧ d3.isDigit = true ∧ d4.isDigit = true := by
  intro l m hm
  obtain ⟨d1, d2, d3, d4, b, he, h1, h2, h3, h4, _, _⟩ := findErrors_shape l m hm
  exact ⟨d1, d2, d3, d4, b, he, h1, h2, h3, h4⟩

/-- C8 (witness): in a text containing both `"E0001: ok"` and `"E12: short"`,
the extracted message is the four-digit one and it has the stated shape. -/
theorem c8_witness :
    (("E0001: ok").data ∈ findErrors (("say \"E0001: ok\" and \"E12: short\"").data)) ∧
    (∃ d1 d2 d3 d4 rest, ("E0001: ok").data = 'E' :: d1 :: d2 :: d3 :: d4 :: ':' :: rest ∧
      d1.isDigit = true ∧ d2.isDigit = true ∧ d3.isDigit = true ∧ d4.isDigit = true) :=
  ⟨by decide,
    c8_four_digits (("say \"E0001: ok\" and \"E12: short\"").data) (("E0001: ok").data)
      (by decide)⟩

/-! ### C9 -/

/-- C10 (confirmed): every extracted message has at least one character after
the colon (`.+?` needs one character) and contains no newline (`.` does not
match newlines because `re.DOTALL` is not set for the extraction), so
literals like `"E0000:"` or ones broken across lines are never extracted. -/
theorem c10_nonempty_no_newline : ∀ (l m : List Char), m ∈ findErrors l →
    (∃ d1 d2 d3 d4 b, m = 'E' :: d1 :: d2 :: d3 :: d4 :: ':' :: b ∧ b ≠ []) ∧
      '\n' ∉ m := by
  intro l m hm
  obtain ⟨d1, d2, d3, d4, b, he, h1, h2, h3, h4, hne, hnl⟩ := findErrors_shape l m hm
  refine ⟨⟨d1, d2, d3, d4, b, he, hne⟩, ?_⟩
  rw [he]
  exact msg_no_nl d1 d2 d3 d4 b h1 h2 h3 h4 hnl

/-- C10 (witness): with `"E0001: ok"`, an empty-message literal `"E0002:"`
and a literal broken by a newline present, only the first is extracted, and
it is non-empty after the colon and newline-free. -/
theorem c10_witness :
    (("E0001: ok").data ∈ findErrors (("\"E0001: ok\" \"E0002:\" \"E0003: a\nb\"").data)) ∧
    ((∃ d1 d2 d3 d4 b, ("E0001: ok").data = 'E' :: d1 :: d2 :: d3 :: d4 :: ':' :: b ∧
        b ≠ []) ∧ '\n' ∉ (("E0001: ok").data)) :=
  ⟨by decide,
    c10_nonempty_no_newline (("\"E0001: ok\" \"E0002:\" \"E0003: a\nb\"").data)
      (("E0001: ok").data) (by decide)⟩
